import Mathlib

set_option maxHeartbeats 1000000
set_option allowUnsafeReducibility true
attribute [local semireducible] Rat.add Rat.mul Rat.inv Rat.sub

/-!
Verification of the budget-enforcement core of `src/core/mintBudget.js`.

The JavaScript module is embedded shallowly: JS numbers become the type
`JNum` (rationals extended with the two infinities and NaN, which the module
manipulates explicitly: `Infinity` is the "unconstrained budget" sentinel and
`-Infinity` seeds the sortedness scan), loops become structural recursion,
thrown errors become `Except.error`, and the mutable `Map` of node weights
becomes an association list with JS `Map.set` update semantics.
-/

namespace MintBudget

/-- JavaScript numbers as used by `core/mintBudget.js`: rationals extended
with the two infinities and NaN.  The sign of zero is not tracked; `-0` is
folded into `0`, which is invisible to every operation this module performs. -/
inductive JNum where
  | nan : JNum
  | negInf : JNum
  | posInf : JNum
  | num : ℚ → JNum
  deriving DecidableEq

/-- JS `<=` on numbers: any comparison with NaN is false. -/
def jle : JNum → JNum → Bool
  | JNum.nan, _ => false
  | _, JNum.nan => false
  | JNum.negInf, _ => true
  | _, JNum.posInf => true
  | JNum.posInf, _ => false
  | _, JNum.negInf => false
  | JNum.num a, JNum.num b => a ≤ b

/-- JS `<` on numbers: any comparison with NaN is false. -/
def jlt : JNum → JNum → Bool
  | JNum.nan, _ => false
  | _, JNum.nan => false
  | JNum.negInf, JNum.negInf => false
  | JNum.negInf, _ => true
  | _, JNum.negInf => false
  | JNum.posInf, _ => false
  | _, JNum.posInf => true
  | JNum.num a, JNum.num b => a < b

/-- JS addition: NaN propagates and opposite infinities give NaN. -/
def jadd : JNum → JNum → JNum
  | JNum.nan, _ => JNum.nan
  | _, JNum.nan => JNum.nan
  | JNum.posInf, JNum.negInf => JNum.nan
  | JNum.negInf, JNum.posInf => JNum.nan
  | JNum.posInf, _ => JNum.posInf
  | _, JNum.posInf => JNum.posInf
  | JNum.negInf, _ => JNum.negInf
  | _, JNum.negInf => JNum.negInf
  | JNum.num a, JNum.num b => JNum.num (a + b)

/-- JS multiplication: NaN propagates and an infinity times zero is NaN. -/
def jmul : JNum → JNum → JNum
  | JNum.nan, _ => JNum.nan
  | _, JNum.nan => JNum.nan
  | JNum.posInf, JNum.posInf => JNum.posInf
  | JNum.posInf, JNum.negInf => JNum.negInf
  | JNum.negInf, JNum.posInf => JNum.negInf
  | JNum.negInf, JNum.negInf => JNum.posInf
  | JNum.posInf, JNum.num b =>
      if 0 < b then JNum.posInf else if b < 0 then JNum.negInf else JNum.nan
  | JNum.num a, JNum.posInf =>
      if 0 < a then JNum.posInf else if a < 0 then JNum.negInf else JNum.nan
  | JNum.negInf, JNum.num b =>
      if 0 < b then JNum.negInf else if b < 0 then JNum.posInf else JNum.nan
  | JNum.num a, JNum.negInf =>
      if 0 < a then JNum.negInf else if a < 0 then JNum.posInf else JNum.nan
  | JNum.num a, JNum.num b => JNum.num (a * b)

/-- JS division (the zero denominator is `+0`, since `-0` is not tracked):
NaN propagates, `inf/inf` and `0/0` are NaN, a nonzero finite number divided
by zero is a signed infinity, a finite number divided by an infinity is 0. -/
def jdiv : JNum → JNum → JNum
  | JNum.nan, _ => JNum.nan
  | _, JNum.nan => JNum.nan
  | JNum.posInf, JNum.posInf => JNum.nan
  | JNum.posInf, JNum.negInf => JNum.nan
  | JNum.negInf, JNum.posInf => JNum.nan
  | JNum.negInf, JNum.negInf => JNum.nan
  | JNum.posInf, JNum.num b => if b < 0 then JNum.negInf else JNum.posInf
  | JNum.negInf, JNum.num b => if b < 0 then JNum.posInf else JNum.negInf
  | JNum.num _, JNum.posInf => JNum.num 0
  | JNum.num _, JNum.negInf => JNum.num 0
  | JNum.num a, JNum.num b =>
      if b = 0 then
        if a = 0 then JNum.nan else if 0 < a then JNum.posInf else JNum.negInf
      else JNum.num (a / b)

/-- The d3-array `sum` used at mintBudget.js line 207: a running JS sum over
the list that skips NaN entries (`if (!isNaN(value = +values[i])) sum += value`),
starting from 0. -/
def jsum (xs : List JNum) : JNum :=
  xs.foldl (fun acc v => if v = JNum.nan then acc else jadd acc v) (JNum.num 0)

/-- Node addresses: ordered sequences of string tokens (spec section 3). -/
abbrev NodeAddr := List String

/-- Modelled from the spec: `NodeAddress.hasPrefix` lives in `core/graph.js`,
which is not among the sources here.  Spec section 3: `isPrefixOf(a, b)` is
true iff the tokens of `a` are a leading subsequence of the tokens of `b`
(an address is trivially its own prefix).  `addrHasPfx addr p` embeds
`NodeAddress.hasPrefix(addr, p)`. -/
def addrHasPfx (addr p : NodeAddr) : Bool := p.isPrefixOf addr

/-- Modelled from the spec: `NodeAddress.toString` lives in `core/graph.js`,
not among the sources; only an injective rendering of the token list is needed
for the error message of `_reweightingForEntry`. -/
def addrToString (a : NodeAddr) : String :=
  "NodeAddress[" ++ String.intercalate "," a ++ "]"

/-- Embeds `_anyCommonPrefixes` (mintBudget.js lines 95-114).  The double loop
tests every index pair `i < j` in both directions and returns true on the
first hit; that is exactly this recursion, which tests the head against every
later element and then recurses on the tail. -/
def _anyCommonPrefixes : List NodeAddr → Bool
  | [] => false
  | a :: rest =>
      rest.any (fun b => addrHasPfx a b || addrHasPfx b a) || _anyCommonPrefixes rest

/-- The loop of `inSortedOrder` (mintBudget.js lines 116-125) with the running
`last` value made explicit. -/
def inSortedOrderFrom : JNum → List JNum → Bool
  | _, [] => true
  | last, x :: rest => if jlt x last then false else inSortedOrderFrom x rest

/-- Embeds `inSortedOrder` (mintBudget.js lines 116-125): `last` starts at
`-Infinity` and the scan fails on the first element below the previous one. -/
def inSortedOrder (xs : List JNum) : Bool :=
  inSortedOrderFrom JNum.negInf xs

/-- A budget period (mintBudget.js lines 26-31). -/
structure BudgetPeriod where
  startTimeMs : JNum
  budget : JNum
  deriving DecidableEq

/-- A budget entry (mintBudget.js lines 33-36). -/
structure BudgetEntry where
  pfx : NodeAddr
  periods : List BudgetPeriod
  deriving DecidableEq

/-- A budget policy (mintBudget.js lines 38-41); the interval length is kept
as a string so that the `!== "WEEKLY"` validation is observable. -/
structure Budget where
  entries : List BudgetEntry
  intervalLength : String

/-- The while loop of `_findCurrentBudget` (mintBudget.js lines 184-193) with
the running `currentBudget` made explicit: it advances while the next period
starts no later than the timestamp, and stops at the first period that does
not qualify. -/
def findBudgetLoop (timestamp : JNum) : List BudgetPeriod → JNum → JNum
  | [], cur => cur
  | p :: rest, cur =>
      if jle p.startTimeMs timestamp then findBudgetLoop timestamp rest p.budget
      else cur

/-- Embeds `_findCurrentBudget` (mintBudget.js lines 180-194). -/
def _findCurrentBudget (periods : List BudgetPeriod) (timestamp : JNum) : JNum :=
  findBudgetLoop timestamp periods JNum.posInf

/-- An address paired with its effective weight (mintBudget.js line 196). -/
structure AddressWeight where
  address : NodeAddr
  weight : JNum

/-- Embeds `_computeWeightNormalizer` (mintBudget.js lines 203-213). -/
def _computeWeightNormalizer (aws : List AddressWeight) (bdg : JNum) : JNum :=
  let totalWeight := jsum (aws.map (fun aw => aw.weight))
  if jle totalWeight bdg then JNum.num 1 else jdiv bdg totalWeight

/-- A graph node: an address plus a creation timestamp (spec section 6). -/
structure GNode where
  address : NodeAddr
  timestampMs : Int
  deriving DecidableEq

/-- The graph structure, reduced to what this module reads from it: its node
list (spec section 3; edges are irrelevant to budget enforcement). -/
abbrev Graph := List GNode

/-- The node-weight table `weights.nodeWeights`: a JS `Map` from address to
number, modelled as an insertion-ordered association list.  The edge-weight
half of the `Weights` record is never touched by this module and is omitted. -/
abbrev NodeWeights := List (NodeAddr × JNum)

/-- JS `Map.get`: the value stored at the key, if any (keys are unique, so
the first matching binding is the binding). -/
def wget : NodeWeights → NodeAddr → Option JNum
  | [], _ => none
  | (b, w) :: rest, a => if b = a then some w else wget rest a

/-- JS `Map.set`: overwrite the existing binding in place, else append. -/
def wset : NodeWeights → NodeAddr → JNum → NodeWeights
  | [], a, v => [(a, v)]
  | (b, w) :: rest, a, v =>
      if b = a then (a, v) :: rest else (b, w) :: wset rest a v

/-- A weighted graph: graph structure plus the node-weight table. -/
structure WeightedGraph where
  graph : Graph
  weights : NodeWeights

/-- Modelled from the spec: `nodeWeightEvaluator` (core/algorithm/weightEvaluator)
is not among the sources.  Spec section 6: the evaluator resolves a node's
effective weight, defaulting unset entries to `1`. -/
def nodeWeightEvaluator (w : NodeWeights) (a : NodeAddr) : JNum :=
  (wget w a).getD (JNum.num 1)

/-- Milliseconds per week, the granularity of the (external) partitioner. -/
def msPerWeek : Int := 604800000

/-- The start of the week containing a timestamp (floor to the week boundary). -/
def weekStart (t : Int) : Int := msPerWeek * (Int.fdiv t msPerWeek)

/-- A time interval, identified by its start (spec section 3). -/
structure Interval where
  startTimeMs : Int
  deriving DecidableEq

/-- One bucket of the interval partition: an interval plus the nodes whose
timestamp falls inside it (spec section 3). -/
structure PGroup where
  interval : Interval
  nodes : List GNode
  deriving DecidableEq

/-- Insertion step of a simple insertion sort on integers. -/
def insertSorted (x : Int) : List Int → List Int
  | [] => [x]
  | y :: rest => if x ≤ y then x :: y :: rest else y :: insertSorted x rest

/-- Insertion sort on integers (used to order the bucket start times). -/
def sortInts (l : List Int) : List Int := l.foldr insertSorted []

/-- Modelled from the spec: `partitionGraph` (core/interval) is not among the
sources.  Spec section 3: the partition is an ordered sequence of
`{interval: {startTime}, nodes}` buckets covering all graph nodes, at weekly
granularity, non-overlapping, ordered by start time.  Each distinct week start
seen among the nodes yields one bucket holding exactly the nodes of that week. -/
def partitionGraph (g : Graph) : List PGroup :=
  (sortInts ((g.map (fun n => weekStart n.timestampMs)).dedup)).map
    (fun s => PGroup.mk (Interval.mk s) (g.filter (fun n => weekStart n.timestampMs == s)))

/-- A recorded reweighting (mintBudget.js line 127). -/
structure Reweight where
  address : NodeAddr
  weight : JNum
  deriving DecidableEq

/-- The loop body of `_reweightingForEntry` (mintBudget.js lines 157-173) for
one bucket: resolve the bucket's budget, filter the bucket's addresses by the
entry's prefix, weigh them, and — when the normalizer is not 1 — record one
`Reweight` per filtered address. -/
def bucketReweights (evaluator : NodeAddr → JNum) (entry : BudgetEntry)
    (pg : PGroup) : List Reweight :=
  let bdg := _findCurrentBudget entry.periods (JNum.num pg.interval.startTimeMs)
  let filteredAddresses :=
    (pg.nodes.map (fun n => n.address)).filter (fun a => addrHasPfx a entry.pfx)
  let addressWeights := filteredAddresses.map (fun a => AddressWeight.mk a (evaluator a))
  let normalizer := _computeWeightNormalizer addressWeights bdg
  if normalizer = JNum.num 1 then []
  else filteredAddresses.map (fun a => Reweight.mk a normalizer)

/-- Embeds `_reweightingForEntry` (mintBudget.js lines 141-175): validate the
entry's period order, then accumulate the per-bucket records over the whole
partition (the JS `results.push` loop is the concatenation of the per-bucket
contributions in partition order). -/
def _reweightingForEntry (evaluator : NodeAddr → JNum) (partition : List PGroup)
    (entry : BudgetEntry) : Except String (List Reweight) :=
  if inSortedOrder (entry.periods.map (fun p => p.startTimeMs)) = false then
    Except.error ("budget for " ++ addrToString entry.pfx ++ " has periods out-of-order")
  else
    Except.ok ((partition.map (bucketReweights evaluator entry)).flatten)

/-- The `budget.entries.map(...)` of `_computeReweighting` (mintBudget.js
line 135): JS evaluates the callback entry by entry and the first thrown
error propagates. -/
def reweightingsForEntries (evaluator : NodeAddr → JNum) (partition : List PGroup) :
    List BudgetEntry → Except String (List (List Reweight))
  | [] => Except.ok []
  | e :: rest =>
      match _reweightingForEntry evaluator partition e with
      | Except.error msg => Except.error msg
      | Except.ok rw =>
          match reweightingsForEntries evaluator partition rest with
          | Except.error msg => Except.error msg
          | Except.ok rest2 => Except.ok (rw :: rest2)

/-- Embeds `_computeReweighting` (mintBudget.js lines 129-139). -/
def _computeReweighting (wg : WeightedGraph) (bdg : Budget) :
    Except String (List Reweight) :=
  match reweightingsForEntries (nodeWeightEvaluator wg.weights) (partitionGraph wg.graph)
      bdg.entries with
  | Except.error msg => Except.error msg
  | Except.ok ls => Except.ok ls.flatten

/-- The materialization loop of `applyBudget` (mintBudget.js lines 76-82):
for each record, read the existing weight from the ORIGINAL table (default 1)
and set the scaled weight in the new table. -/
def materialize (orig : NodeWeights) : List Reweight → NodeWeights → NodeWeights
  | [], newWeights => newWeights
  | r :: rest, newWeights =>
      let existingWeight := (wget orig r.address).getD (JNum.num 1)
      materialize orig rest (wset newWeights r.address (jmul existingWeight r.weight))

/-- Embeds `applyBudget` (mintBudget.js lines 51-85); thrown errors become
`Except.error`.  `Weights.copy` starts the new table from the original's
bindings. -/
def applyBudget (wg : WeightedGraph) (bdg : Budget) : Except String WeightedGraph :=
  if _anyCommonPrefixes (bdg.entries.map (fun e => e.pfx)) then
    Except.error "budget prefix conflict detected"
  else if bdg.intervalLength ≠ "WEEKLY" then
    Except.error "non-weekly budgets not supported"
  else
    match _computeReweighting wg bdg with
    | Except.error msg => Except.error msg
    | Except.ok reweighting =>
        Except.ok (WeightedGraph.mk wg.graph (materialize wg.weights reweighting wg.weights))

/-- A heap of weight tables, for stating mutation/aliasing properties: each
weighted-graph value holds a reference (an index) into the store, so that
"the input table was not mutated" and "the result holds a freshly allocated
table" are expressible. -/
abbrev Store := List NodeWeights

/-- A weighted graph whose weight table lives in a `Store`. -/
structure WGRef where
  graph : Graph
  weightsRef : Nat
  deriving DecidableEq

/-- Embeds `applyBudget` again, with the JS heap made explicit: the store is
threaded through and survives thrown errors.  `Weights.copy` (line 73)
allocates a fresh table at index `st.length`; the materialization loop mutates
only that fresh table.  The validations touch no table at all. -/
def applyBudgetStore (st : Store) (wg : WGRef) (bdg : Budget) :
    Store × Except String WGRef :=
  let tbl := st.getD wg.weightsRef []
  if _anyCommonPrefixes (bdg.entries.map (fun e => e.pfx)) then
    (st, Except.error "budget prefix conflict detected")
  else if bdg.intervalLength ≠ "WEEKLY" then
    (st, Except.error "non-weekly budgets not supported")
  else
    match _computeReweighting (WeightedGraph.mk wg.graph tbl) bdg with
    | Except.error msg => (st ++ [tbl], Except.error msg)
    | Except.ok reweighting =>
        (st ++ [materialize tbl reweighting tbl],
         Except.ok (WGRef.mk wg.graph st.length))

lemma jle_trans {a b c : JNum} (h1 : jle a b = true) (h2 : jle b c = true) :
    jle a c = true := by
  cases a <;> cases b <;> cases c <;> simp_all [jle]
  exact le_trans h1 h2

lemma jlt_eq_false_of_jle {a b : JNum} (h : jle a b = true) : jlt b a = false := by
  cases a <;> cases b <;> simp_all [jle, jlt]

lemma jle_eq_false_of_jlt {a b : JNum} (h : jlt a b = true) : jle b a = false := by
  cases a <;> cases b <;> simp_all [jle, jlt]

lemma jadd_nonneg {a b : JNum} (ha : jle (JNum.num 0) a = true)
    (hb : jle (JNum.num 0) b = true) : jle (JNum.num 0) (jadd a b) = true := by
  cases a <;> cases b <;> simp_all [jle, jadd]
  exact add_nonneg ha hb

/-- The fold step of `jsum`. -/
def jsumStep (acc v : JNum) : JNum := if v = JNum.nan then acc else jadd acc v

lemma jsum_eq_foldl (xs : List JNum) : jsum xs = xs.foldl jsumStep (JNum.num 0) := rfl

lemma foldl_jsumStep_nonneg :
    ∀ (l : List JNum) (acc : JNum), jle (JNum.num 0) acc = true →
      (∀ w ∈ l, jle (JNum.num 0) w = true) →
      jle (JNum.num 0) (l.foldl jsumStep acc) = true := by
  intro l
  induction l with
  | nil => intro acc hacc _; simpa using hacc
  | cons w rest ih =>
      intro acc hacc hall
      have hw : jle (JNum.num 0) w = true := hall w (by simp)
      have hwn : w ≠ JNum.nan := by
        intro h; rw [h] at hw; simp [jle] at hw
      simp only [List.foldl_cons, jsumStep, if_neg hwn]
      exact ih (jadd acc w) (jadd_nonneg hacc hw) (fun x hx => hall x (by simp [hx]))

lemma jsum_nonneg {l : List JNum} (h : ∀ w ∈ l, jle (JNum.num 0) w = true) :
    jle (JNum.num 0) (jsum l) = true :=
  foldl_jsumStep_nonneg l (JNum.num 0) (by simp [jle]) h

lemma foldl_jsumStep_num :
    ∀ (l : List JNum) (a : ℚ), (∀ w ∈ l, ∃ q : ℚ, w = JNum.num q) →
      ∃ s : ℚ, l.foldl jsumStep (JNum.num a) = JNum.num s := by
  intro l
  induction l with
  | nil => intro a _; exact ⟨a, rfl⟩
  | cons w rest ih =>
      intro a hall
      obtain ⟨q, hq⟩ := hall w (by simp)
      subst hq
      simp only [List.foldl_cons, jsumStep, if_neg (by simp : JNum.num q ≠ JNum.nan), jadd]
      exact ih (a + q) (fun x hx => hall x (by simp [hx]))

lemma jsum_num_of_finite {l : List JNum} (h : ∀ w ∈ l, ∃ q : ℚ, w = JNum.num q) :
    ∃ s : ℚ, jsum l = JNum.num s :=
  foldl_jsumStep_num l 0 h

lemma foldl_jsumStep_sum :
    ∀ (qs : List ℚ) (a : ℚ),
      (qs.map JNum.num).foldl jsumStep (JNum.num a) = JNum.num (a + qs.sum) := by
  intro qs
  induction qs with
  | nil => intro a; simp
  | cons q rest ih =>
      intro a
      simp only [List.map_cons, List.foldl_cons, jsumStep,
        if_neg (by simp : JNum.num q ≠ JNum.nan), jadd, ih, List.sum_cons]
      ring_nf

lemma jsum_map_num (qs : List ℚ) : jsum (qs.map JNum.num) = JNum.num qs.sum := by
  rw [jsum_eq_foldl, foldl_jsumStep_sum, zero_add]

lemma foldl_jsumStep_zero :
    ∀ (l : List JNum), (∀ w ∈ l, w = JNum.num 0) →
      l.foldl jsumStep (JNum.num 0) = JNum.num 0 := by
  intro l
  induction l with
  | nil => intro _; rfl
  | cons w rest ih =>
      intro hall
      have hw : w = JNum.num 0 := hall w (by simp)
      subst hw
      simp only [List.foldl_cons, jsumStep, if_neg (by simp : JNum.num 0 ≠ JNum.nan),
        jadd, add_zero]
      exact ih (fun x hx => hall x (by simp [hx]))

/-- C10: with a non-negative budget, a weight list summing to zero (in
particular an empty list or one whose weights are all zero) yields
normalization coefficient exactly 1, so such a bucket is never rescaled,
even under a zero budget. -/
theorem computeWeightNormalizer_zero_sum (aws : List AddressWeight) (bdg : JNum)
    (hb : jle (JNum.num 0) bdg = true)
    (hw : ∀ w ∈ aws.map (fun aw => aw.weight), w = JNum.num 0) :
    _computeWeightNormalizer aws bdg = JNum.num 1 := by
  have hz : jsum (aws.map (fun aw => aw.weight)) = JNum.num 0 :=
    foldl_jsumStep_zero _ hw
  simp only [_computeWeightNormalizer, hz, hb, if_pos]

/-- C10 witness: the empty weight list under a zero budget. -/
theorem computeWeightNormalizer_zero_sum_witness :
    jle (JNum.num 0) (JNum.num 0) = true ∧
      _computeWeightNormalizer [] (JNum.num 0) = JNum.num 1 :=
  ⟨by decide, computeWeightNormalizer_zero_sum [] (JNum.num 0) (by decide) (by decide)⟩

/-- C4 counterexample: at the empty weight list and budget `-1`, the code
takes the `sum > budget` branch (`0 ≤ -1` is false), the coefficient is
`-1 / 0 = -Infinity`, and coefficient × sum is `-Infinity × 0 = NaN`, which
is not `≤ -1`: the claimed guarantee fails for this budget. -/
theorem computeWeightNormalizer_guarantee_fails :
    jle (jsum (([] : List AddressWeight).map (fun aw => aw.weight)))
        (JNum.num (-1)) = false ∧
    _computeWeightNormalizer [] (JNum.num (-1)) = JNum.negInf ∧
    jle (jmul (_computeWeightNormalizer [] (JNum.num (-1)))
        (jsum (([] : List AddressWeight).map (fun aw => aw.weight))))
        (JNum.num (-1)) = false := by
  decide

/-- C4 (amended): for finite weights and a non-negative (or infinite) budget,
`_computeWeightNormalizer` returns exactly 1 when the weight sum is ≤ the
budget, and budget / sum otherwise; in the latter case coefficient × sum
equals the budget, hence does not exceed it. -/
theorem computeWeightNormalizer_spec (aws : List AddressWeight) (bdg : JNum)
    (hfin : ∀ w ∈ aws.map (fun aw => aw.weight), ∃ q : ℚ, w = JNum.num q)
    (hb : jle (JNum.num 0) bdg = true) :
    (jle (jsum (aws.map (fun aw => aw.weight))) bdg = true →
      _computeWeightNormalizer aws bdg = JNum.num 1) ∧
    (jle (jsum (aws.map (fun aw => aw.weight))) bdg = false →
      _computeWeightNormalizer aws bdg =
        jdiv bdg (jsum (aws.map (fun aw => aw.weight)))) ∧
    (jle (jsum (aws.map (fun aw => aw.weight))) bdg = false →
      jle (jmul (_computeWeightNormalizer aws bdg)
        (jsum (aws.map (fun aw => aw.weight)))) bdg = true) := by
  obtain ⟨s, hs⟩ := jsum_num_of_finite hfin
  refine ⟨fun hle => ?_, fun hgt => ?_, fun hgt => ?_⟩
  · simp only [_computeWeightNormalizer, hle, if_pos]
  · simp only [_computeWeightNormalizer, hgt, if_neg, Bool.false_eq_true,
      not_false_eq_true, if_false]
  · rw [hs] at hgt ⊢
    cases bdg with
    | nan => simp [jle] at hb
    | negInf => simp [jle] at hb
    | posInf => simp [jle] at hgt
    | num b =>
        have hb0 : (0 : ℚ) ≤ b := by simpa [jle] using hb
        have hbs : b < s := by
          have := hgt
          simp only [jle, decide_eq_false_iff_not, not_le] at this
          exact this
        have hs0 : s ≠ 0 := by
          intro h
          rw [h] at hbs
          exact absurd hbs (not_lt.mpr hb0)
        have hnorm : _computeWeightNormalizer aws (JNum.num b) = JNum.num (b / s) := by
          simp only [_computeWeightNormalizer, hs, hgt, Bool.false_eq_true,
            not_false_eq_true, if_false, if_neg, jdiv, if_neg hs0]
        rw [hnorm]
        simp only [jmul, jle, decide_eq_true_eq]
        rw [div_mul_cancel₀ b hs0]

/-- C4 witness: weights 10 and 90 against budget 10. -/
theorem computeWeightNormalizer_spec_witness :
    (∀ w ∈ ([AddressWeight.mk ["a"] (JNum.num 10),
        AddressWeight.mk ["b"] (JNum.num 90)].map (fun aw => aw.weight)),
      ∃ q : ℚ, w = JNum.num q) ∧
    jle (JNum.num 0) (JNum.num 10) = true ∧
    (jle (jsum ([AddressWeight.mk ["a"] (JNum.num 10),
        AddressWeight.mk ["b"] (JNum.num 90)].map (fun aw => aw.weight)))
        (JNum.num 10) = false →
      jle (jmul (_computeWeightNormalizer [AddressWeight.mk ["a"] (JNum.num 10),
          AddressWeight.mk ["b"] (JNum.num 90)] (JNum.num 10))
        (jsum ([AddressWeight.mk ["a"] (JNum.num 10),
          AddressWeight.mk ["b"] (JNum.num 90)].map (fun aw => aw.weight))))
        (JNum.num 10) = true) := by
  refine ⟨?_, by decide, ?_⟩
  · intro w hw
    simp only [List.map_cons, List.map_nil, List.mem_cons, List.not_mem_nil,
      or_false] at hw
    rcases hw with h | h
    · exact ⟨10, h⟩
    · exact ⟨90, h⟩
  · exact (computeWeightNormalizer_spec _ _
      (by intro w hw
          simp only [List.map_cons, List.map_nil, List.mem_cons, List.not_mem_nil,
            or_false] at hw
          rcases hw with h | h
          · exact ⟨10, h⟩
          · exact ⟨90, h⟩)
      (by decide)).2.2

/-- C5 counterexample: a single weight 1 under budget 0 (non-negative weights,
non-negative budget) yields coefficient 0, which is not in the open-below
interval (0, 1]. -/
theorem computeWeightNormalizer_not_pos :
    _computeWeightNormalizer [AddressWeight.mk ["a"] (JNum.num 1)] (JNum.num 0) =
      JNum.num 0 ∧
    jlt (JNum.num 0)
      (_computeWeightNormalizer [AddressWeight.mk ["a"] (JNum.num 1)] (JNum.num 0)) =
      false := by
  decide

/-- C5 (amended): for non-negative weights and a non-negative budget the
coefficient lies in the closed interval [0, 1], and a zero budget against a
positive total weight yields coefficient exactly 0. -/
theorem computeWeightNormalizer_range (aws : List AddressWeight) (bdg : JNum)
    (hw : ∀ w ∈ aws.map (fun aw => aw.weight), jle (JNum.num 0) w = true)
    (hb : jle (JNum.num 0) bdg = true) :
    jle (JNum.num 0) (_computeWeightNormalizer aws bdg) = true ∧
    jle (_computeWeightNormalizer aws bdg) (JNum.num 1) = true ∧
    (bdg = JNum.num 0 →
      jlt (JNum.num 0) (jsum (aws.map (fun aw => aw.weight))) = true →
      _computeWeightNormalizer aws bdg = JNum.num 0) := by
  have htw : jle (JNum.num 0) (jsum (aws.map (fun aw => aw.weight))) = true :=
    jsum_nonneg hw
  by_cases hle : jle (jsum (aws.map (fun aw => aw.weight))) bdg = true
  · have h1 : _computeWeightNormalizer aws bdg = JNum.num 1 := by
      simp only [_computeWeightNormalizer, hle, if_pos]
    refine ⟨by simp [h1, jle], by simp [h1, jle], fun hb0 hpos => ?_⟩
    subst hb0
    have := jlt_eq_false_of_jle hle
    rw [this] at hpos
    exact absurd hpos (by simp)
  · have hgt : jle (jsum (aws.map (fun aw => aw.weight))) bdg = false :=
      Bool.eq_false_iff.mpr hle
    have hcw : _computeWeightNormalizer aws bdg =
        jdiv bdg (jsum (aws.map (fun aw => aw.weight))) := by
      simp only [_computeWeightNormalizer, hgt, Bool.false_eq_true,
        not_false_eq_true, if_false, if_neg]
    cases hb' : bdg with
    | nan => rw [hb'] at hb; simp [jle] at hb
    | negInf => rw [hb'] at hb; simp [jle] at hb
    | posInf =>
        rw [hb'] at hgt
        cases htv : jsum (aws.map (fun aw => aw.weight)) with
        | nan => rw [htv] at htw; simp [jle] at htw
        | negInf => rw [htv] at htw; simp [jle] at htw
        | posInf => rw [htv] at hgt; simp [jle] at hgt
        | num s => rw [htv] at hgt; simp [jle] at hgt
    | num b =>
        have hb0 : (0 : ℚ) ≤ b := by rw [hb'] at hb; simpa [jle] using hb
        rw [hb'] at hcw hgt
        cases htv : jsum (aws.map (fun aw => aw.weight)) with
        | nan => rw [htv] at htw; simp [jle] at htw
        | negInf => rw [htv] at htw; simp [jle] at htw
        | posInf =>
            rw [htv] at hcw
            simp only [jdiv] at hcw
            refine ⟨by simp [hcw, jle], by simp [hcw, jle], fun _ _ => by simp [hcw]⟩
        | num s =>
            have hs0 : (0 : ℚ) ≤ s := by rw [htv] at htw; simpa [jle] using htw
            have hbs : b < s := by
              rw [htv] at hgt
              simpa [jle] using hgt
            have hspos : (0 : ℚ) < s := lt_of_le_of_lt hb0 hbs
            rw [htv] at hcw
            simp only [jdiv, if_neg (ne_of_gt hspos)] at hcw
            refine ⟨?_, ?_, fun hb0' _ => ?_⟩
            · simp only [hcw, jle, decide_eq_true_eq]
              exact div_nonneg hb0 hs0
            · simp only [hcw, jle, decide_eq_true_eq]
              exact (div_le_one hspos).mpr (le_of_lt hbs)
            · have : b = 0 := by
                injection hb0' with h
              rw [hcw, this, zero_div]

/-- C5 witness: a single weight 1 under budget 0 lies in [0, 1] and the zero
budget with positive total weight yields coefficient 0. -/
theorem computeWeightNormalizer_range_witness :
    jle (JNum.num 0)
      (_computeWeightNormalizer [AddressWeight.mk ["a"] (JNum.num 1)] (JNum.num 0)) =
      true ∧
    jle (_computeWeightNormalizer [AddressWeight.mk ["a"] (JNum.num 1)] (JNum.num 0))
      (JNum.num 1) = true ∧
    (JNum.num 0 = JNum.num 0 →
      jlt (JNum.num 0)
        (jsum ([AddressWeight.mk ["a"] (JNum.num 1)].map (fun aw => aw.weight))) =
        true →
      _computeWeightNormalizer [AddressWeight.mk ["a"] (JNum.num 1)] (JNum.num 0) =
        JNum.num 0) :=
  computeWeightNormalizer_range [AddressWeight.mk ["a"] (JNum.num 1)] (JNum.num 0)
    (by decide) (by decide)

/-- The ordering of periods by start time used in validation and resolution. -/
def periodLE (p q : BudgetPeriod) : Prop := jle p.startTimeMs q.startTimeMs = true

lemma pairwise_periodLE_of_chain :
    ∀ {l : List BudgetPeriod}, List.Chain' periodLE l → l.Pairwise periodLE := by
  intro l
  induction l with
  | nil => intro _; exact List.Pairwise.nil
  | cons p rest ih =>
      intro h
      rw [List.chain'_cons'] at h
      obtain ⟨hhead, htail⟩ := h
      refine List.Pairwise.cons ?_ (ih htail)
      intro q hq
      induction rest with
      | nil => cases hq
      | cons r rest2 _ =>
          have hpr : periodLE p r := hhead r rfl
          rcases List.mem_cons.mp hq with h' | h'
          · exact h' ▸ hpr
          · have hpair := ih htail
            have hr : ∀ x ∈ rest2, periodLE r x :=
              (List.pairwise_cons.mp hpair).1
            exact jle_trans hpr (hr q h')

lemma findBudgetLoop_eq (t : JNum) :
    ∀ (l : List BudgetPeriod), l.Pairwise periodLE →
      ∀ cur, findBudgetLoop t l cur =
        (((l.filter (fun p => jle p.startTimeMs t)).getLast?).map
          (fun p => p.budget)).getD cur := by
  intro l
  induction l with
  | nil => intro _ cur; rfl
  | cons p rest ih =>
      intro hp cur
      obtain ⟨hhead, htail⟩ := List.pairwise_cons.mp hp
      by_cases hq : jle p.startTimeMs t = true
      · rw [List.filter_cons, if_pos hq]
        rw [findBudgetLoop, if_pos hq, ih htail p.budget]
        cases hfe : rest.filter (fun p => jle p.startTimeMs t) with
        | nil => simp
        | cons x xs =>
            rw [List.getLast?_cons_cons]
            cases hlast : (x :: xs).getLast? with
            | none => exact absurd (List.getLast?_eq_none_iff.mp hlast) (by simp)
            | some y => simp [hlast]
      · have hq' : jle p.startTimeMs t = false := Bool.eq_false_iff.mpr hq
        rw [List.filter_cons, if_neg (by simp [hq'])]
        have hrest : rest.filter (fun p => jle p.startTimeMs t) = [] := by
          rw [List.filter_eq_nil_iff]
          intro q hqr
          intro hcontra
          exact hq (jle_trans (hhead q hqr) (by simpa using hcontra))
        rw [hrest, findBudgetLoop, if_neg (by simp [hq'])]
        rfl

instance : DecidableRel periodLE := fun p q => by
  unfold periodLE
  infer_instance

/-- C3: on a list of periods that is non-decreasing by start time,
`_findCurrentBudget` returns the budget of the last (latest-index) period
whose start time is ≤ the timestamp — so among periods sharing a start time
the later one wins — and positive infinity when the list is empty or no
period qualifies. -/
theorem findCurrentBudget_selects_last (periods : List BudgetPeriod) (t : JNum)
    (hsorted : List.Chain' periodLE periods) :
    _findCurrentBudget periods t =
      (((periods.filter (fun p => jle p.startTimeMs t)).getLast?).map
        (fun p => p.budget)).getD JNum.posInf :=
  findBudgetLoop_eq t periods (pairwise_periodLE_of_chain hsorted) JNum.posInf

/-- C3 witness: the repo's own example — periods with starts 0, 1, 1, 2 and
budgets 1, 2, 3, 4; at time 1 the filter keeps the first three periods, the
last of which has budget 3. -/
theorem findCurrentBudget_selects_last_witness :
    List.Chain' periodLE
      [BudgetPeriod.mk (JNum.num 0) (JNum.num 1), BudgetPeriod.mk (JNum.num 1) (JNum.num 2),
       BudgetPeriod.mk (JNum.num 1) (JNum.num 3), BudgetPeriod.mk (JNum.num 2) (JNum.num 4)] ∧
    _findCurrentBudget
      [BudgetPeriod.mk (JNum.num 0) (JNum.num 1), BudgetPeriod.mk (JNum.num 1) (JNum.num 2),
       BudgetPeriod.mk (JNum.num 1) (JNum.num 3), BudgetPeriod.mk (JNum.num 2) (JNum.num 4)]
      (JNum.num 1) =
      ((([BudgetPeriod.mk (JNum.num 0) (JNum.num 1), BudgetPeriod.mk (JNum.num 1) (JNum.num 2),
          BudgetPeriod.mk (JNum.num 1) (JNum.num 3), BudgetPeriod.mk (JNum.num 2) (JNum.num 4)].filter
          (fun p => jle p.startTimeMs (JNum.num 1))).getLast?).map
        (fun p => p.budget)).getD JNum.posInf :=
  ⟨by simp only [List.chain'_cons, List.chain'_singleton, periodLE, and_true]; decide,
   findCurrentBudget_selects_last _ _
     (by simp only [List.chain'_cons, List.chain'_singleton, periodLE, and_true]; decide)⟩

/-- Absence of a prefix relation between two addresses, in either direction. -/
def noMutualPfx (a b : NodeAddr) : Prop :=
  ¬ (addrHasPfx a b = true ∨ addrHasPfx b a = true)

lemma noMutualPfx_symm : ∀ {a b : NodeAddr}, noMutualPfx a b → noMutualPfx b a := by
  intro a b h hc
  exact h hc.symm

lemma anyCommonPrefixes_eq_false_iff :
    ∀ l : List NodeAddr, _anyCommonPrefixes l = false ↔ l.Pairwise noMutualPfx := by
  intro l
  induction l with
  | nil => simp [_anyCommonPrefixes]
  | cons a rest ih =>
      simp only [_anyCommonPrefixes, Bool.or_eq_false_iff, List.any_eq_false,
        List.pairwise_cons, ih, noMutualPfx, Bool.or_eq_true]
      try tauto

lemma anyCommonPrefixes_eq_true_iff {l : List NodeAddr} :
    _anyCommonPrefixes l = true ↔ ¬ l.Pairwise noMutualPfx := by
  rw [← anyCommonPrefixes_eq_false_iff]
  cases h : _anyCommonPrefixes l <;> simp

/-- C6: `_anyCommonPrefixes` is invariant under permutation of its input. -/
theorem anyCommonPrefixes_perm_invariant (l1 l2 : List NodeAddr)
    (h : List.Perm l1 l2) :
    _anyCommonPrefixes l1 = _anyCommonPrefixes l2 := by
  have hiff : l1.Pairwise noMutualPfx ↔ l2.Pairwise noMutualPfx :=
    List.Perm.pairwise_iff (fun hxy => noMutualPfx_symm hxy) h
  have e1 := anyCommonPrefixes_eq_false_iff l1
  have e2 := anyCommonPrefixes_eq_false_iff l2
  cases hb1 : _anyCommonPrefixes l1 <;> cases hb2 : _anyCommonPrefixes l2 <;>
    simp_all

/-- C6 witness: swapping the two addresses of the repo's own test case. -/
theorem anyCommonPrefixes_perm_invariant_witness :
    List.Perm [(["foo"] : NodeAddr), []] [[], ["foo"]] ∧
    _anyCommonPrefixes [(["foo"] : NodeAddr), []] = _anyCommonPrefixes [[], ["foo"]] :=
  ⟨List.Perm.swap _ _ _,
   anyCommonPrefixes_perm_invariant _ _ (List.Perm.swap _ _ _)⟩

/-- C7: `_anyCommonPrefixes` is true exactly when two distinct indices hold
addresses one of which is a prefix of the other; it is false on the empty
list and true on `[x, x]` for every address `x`. -/
theorem anyCommonPrefixes_iff_exists_pair :
    (∀ l : List NodeAddr, _anyCommonPrefixes l = true ↔
      ∃ i j, i < l.length ∧ j < l.length ∧ i ≠ j ∧
        (addrHasPfx (l.getD j []) (l.getD i []) = true ∨
         addrHasPfx (l.getD i []) (l.getD j []) = true)) ∧
    _anyCommonPrefixes [] = false ∧
    (∀ x : NodeAddr, _anyCommonPrefixes [x, x] = true) := by
  refine ⟨fun l => ?_, by decide, fun x => ?_⟩
  · rw [anyCommonPrefixes_eq_true_iff, List.pairwise_iff_getElem]
    push_neg
    constructor
    · rintro ⟨i, j, hi, hj, hij, hnot⟩
      rw [noMutualPfx, not_not] at hnot
      refine ⟨i, j, hi, hj, Nat.ne_of_lt hij, ?_⟩
      rw [List.getD_eq_getElem?_getD, List.getD_eq_getElem?_getD,
        List.getElem?_eq_getElem hi, List.getElem?_eq_getElem hj]
      simpa using hnot.symm
    · rintro ⟨i, j, hi, hj, hij, hpfx⟩
      rw [List.getD_eq_getElem?_getD, List.getD_eq_getElem?_getD,
        List.getElem?_eq_getElem hi, List.getElem?_eq_getElem hj] at hpfx
      simp only [Option.getD_some] at hpfx
      rcases Nat.lt_or_ge i j with hlt | hge
      · exact ⟨i, j, hi, hj, hlt, by rw [noMutualPfx, not_not]; exact hpfx.symm⟩
      · have hlt : j < i := Nat.lt_of_le_of_ne hge (Ne.symm hij)
        exact ⟨j, i, hj, hi, hlt, by rw [noMutualPfx, not_not]; exact hpfx⟩
  · simp [_anyCommonPrefixes, addrHasPfx, List.isPrefixOf_iff_prefix]

lemma getD_append_left {α : Type} (l l2 : List α) (i : Nat) (d : α)
    (h : i < l.length) : (l ++ l2).getD i d = l.getD i d := by
  rw [List.getD_eq_getElem?_getD, List.getD_eq_getElem?_getD,
    List.getElem?_append_left h]

/-- The sortedness check of `_reweightingForEntry` on one entry. -/
def entryPeriodsSorted (e : BudgetEntry) : Bool :=
  inSortedOrder (e.periods.map (fun p => p.startTimeMs))

/-- The error message thrown for an entry with out-of-order periods. -/
def outOfOrderMsg (e : BudgetEntry) : String :=
  "budget for " ++ addrToString e.pfx ++ " has periods out-of-order"

lemma reweightingForEntry_error {evaluator : NodeAddr → JNum} {partition : List PGroup}
    {e : BudgetEntry} (h : entryPeriodsSorted e = false) :
    _reweightingForEntry evaluator partition e = Except.error (outOfOrderMsg e) := by
  unfold _reweightingForEntry
  rw [show inSortedOrder (e.periods.map (fun p => p.startTimeMs)) = false from h]
  rfl

lemma reweightingForEntry_ok {evaluator : NodeAddr → JNum} {partition : List PGroup}
    {e : BudgetEntry} (h : entryPeriodsSorted e = true) :
    _reweightingForEntry evaluator partition e =
      Except.ok ((partition.map (bucketReweights evaluator e)).flatten) := by
  unfold _reweightingForEntry
  rw [show inSortedOrder (e.periods.map (fun p => p.startTimeMs)) = true from h]
  rfl

lemma reweightingsForEntries_error (evaluator : NodeAddr → JNum)
    (partition : List PGroup) :
    ∀ l : List BudgetEntry, (∃ e ∈ l, entryPeriodsSorted e = false) →
      ∃ e ∈ l, entryPeriodsSorted e = false ∧
        reweightingsForEntries evaluator partition l = Except.error (outOfOrderMsg e) := by
  intro l
  induction l with
  | nil => rintro ⟨e, he, _⟩; cases he
  | cons a rest ih =>
      rintro ⟨e, he, hbad⟩
      by_cases ha : entryPeriodsSorted a = false
      · exact ⟨a, by simp, ha, by
          unfold reweightingsForEntries
          rw [reweightingForEntry_error ha]⟩
      · have ha' : entryPeriodsSorted a = true := by
          cases h : entryPeriodsSorted a
          · exact absurd h ha
          · rfl
        have hrest : ∃ e ∈ rest, entryPeriodsSorted e = false := by
          rcases List.mem_cons.mp he with h' | h'
          · exact absurd (h' ▸ hbad) (by rw [ha']; simp)
          · exact ⟨e, h', hbad⟩
        obtain ⟨e2, he2, hbad2, herr⟩ := ih hrest
        refine ⟨e2, by simp [he2], hbad2, ?_⟩
        unfold reweightingsForEntries
        rw [reweightingForEntry_ok ha', herr]

lemma reweightingsForEntries_ok (evaluator : NodeAddr → JNum)
    (partition : List PGroup) :
    ∀ l : List BudgetEntry, (∀ e ∈ l, entryPeriodsSorted e = true) →
      reweightingsForEntries evaluator partition l =
        Except.ok (l.map (fun e => (partition.map (bucketReweights evaluator e)).flatten)) := by
  intro l
  induction l with
  | nil => intro _; rfl
  | cons a rest ih =>
      intro hall
      unfold reweightingsForEntries
      rw [reweightingForEntry_ok (hall a (by simp)),
        ih (fun e he => hall e (by simp [he]))]
      rfl

lemma computeReweighting_ok {wg : WeightedGraph} {bdg : Budget}
    (hall : ∀ e ∈ bdg.entries, entryPeriodsSorted e = true) :
    _computeReweighting wg bdg =
      Except.ok ((bdg.entries.map (fun e =>
        ((partitionGraph wg.graph).map
          (bucketReweights (nodeWeightEvaluator wg.weights) e)).flatten)).flatten) := by
  unfold _computeReweighting
  rw [reweightingsForEntries_ok _ _ _ hall]

lemma computeReweighting_error (wg : WeightedGraph) (bdg : Budget)
    (hbad : ∃ e ∈ bdg.entries, entryPeriodsSorted e = false) :
    ∃ e ∈ bdg.entries, entryPeriodsSorted e = false ∧
      _computeReweighting wg bdg = Except.error (outOfOrderMsg e) := by
  obtain ⟨e, he, hb, herr⟩ :=
    reweightingsForEntries_error (nodeWeightEvaluator wg.weights)
      (partitionGraph wg.graph) bdg.entries hbad
  refine ⟨e, he, hb, ?_⟩
  unfold _computeReweighting
  rw [herr]

/-- C2: every validation failure (prefix conflict, non-weekly interval, or an
entry with out-of-order periods) makes `applyBudget` throw without writing to
any weight table: the whole store is unchanged at every pre-existing index,
so inputs and previously computed graph state are untouched; and when the
first two validations pass, the error is the periods-out-of-order message
naming an offending entry's prefix. -/
theorem applyBudget_validation_all_or_nothing (st : Store) (wg : WGRef) (bdg : Budget)
    (hbad : _anyCommonPrefixes (bdg.entries.map (fun e => e.pfx)) = true ∨
            bdg.intervalLength ≠ "WEEKLY" ∨
            ∃ e ∈ bdg.entries, entryPeriodsSorted e = false) :
    (∃ msg, (applyBudgetStore st wg bdg).2 = Except.error msg) ∧
    (∀ i, i < st.length →
      (applyBudgetStore st wg bdg).1.getD i [] = st.getD i []) ∧
    (_anyCommonPrefixes (bdg.entries.map (fun e => e.pfx)) = false →
      bdg.intervalLength = "WEEKLY" →
      ∃ e ∈ bdg.entries, entryPeriodsSorted e = false ∧
        (applyBudgetStore st wg bdg).2 = Except.error (outOfOrderMsg e)) := by
  by_cases h1 : _anyCommonPrefixes (bdg.entries.map (fun e => e.pfx)) = true
  · refine ⟨⟨"budget prefix conflict detected", ?_⟩, fun i _ => ?_, fun hno _ => ?_⟩
    · simp only [applyBudgetStore, h1, if_pos]
    · simp only [applyBudgetStore, h1, if_pos]
    · rw [h1] at hno; cases hno
  · have h1' : _anyCommonPrefixes (bdg.entries.map (fun e => e.pfx)) = false :=
      Bool.eq_false_iff.mpr h1
    by_cases h2 : bdg.intervalLength = "WEEKLY"
    · have hbad3 : ∃ e ∈ bdg.entries, entryPeriodsSorted e = false := by
        rcases hbad with h | h | h
        · exact absurd h h1
        · exact absurd h2 h
        · exact h
      obtain ⟨e, he, hb, herr⟩ :=
        computeReweighting_error (WeightedGraph.mk wg.graph (st.getD wg.weightsRef []))
          bdg hbad3
      have hrun : applyBudgetStore st wg bdg =
          (st ++ [st.getD wg.weightsRef []], Except.error (outOfOrderMsg e)) := by
        simp only [applyBudgetStore, h1', Bool.false_eq_true, not_false_eq_true,
          if_false, if_neg, h2, ne_eq, not_true_eq_false]
        rw [herr]
      refine ⟨⟨outOfOrderMsg e, by rw [hrun]⟩, fun i hi => ?_, fun _ _ => ⟨e, he, hb, by rw [hrun]⟩⟩
      rw [hrun]
      exact getD_append_left _ _ _ _ hi
    · refine ⟨⟨"non-weekly budgets not supported", ?_⟩, fun i _ => ?_, fun _ hweek => ?_⟩
      · simp only [applyBudgetStore, h1', Bool.false_eq_true, not_false_eq_true,
          if_false, if_neg, h2, ne_eq, not_false_eq_true, if_true]
      · simp only [applyBudgetStore, h1', Bool.false_eq_true, not_false_eq_true,
          if_false, if_neg, h2, ne_eq, not_false_eq_true, if_true]
      · exact absurd hweek h2

/-- C2 witness: the repo's out-of-order test case — one entry with period
starts 50 then 25 — run against a one-table store. -/
theorem applyBudget_validation_all_or_nothing_witness :
    (_anyCommonPrefixes ([BudgetEntry.mk []
          [BudgetPeriod.mk (JNum.num 50) (JNum.num 100),
           BudgetPeriod.mk (JNum.num 25) (JNum.num 50)]].map (fun e => e.pfx)) = true ∨
      ("WEEKLY" : String) ≠ "WEEKLY" ∨
      ∃ e ∈ [BudgetEntry.mk []
          [BudgetPeriod.mk (JNum.num 50) (JNum.num 100),
           BudgetPeriod.mk (JNum.num 25) (JNum.num 50)]], entryPeriodsSorted e = false) ∧
    (∃ msg, (applyBudgetStore [[(["1"], JNum.num 10)]] (WGRef.mk [GNode.mk ["1"] 0] 0)
        (Budget.mk [BudgetEntry.mk []
          [BudgetPeriod.mk (JNum.num 50) (JNum.num 100),
           BudgetPeriod.mk (JNum.num 25) (JNum.num 50)]] "WEEKLY")).2 =
        Except.error msg) := by
  have hbad : _anyCommonPrefixes ([BudgetEntry.mk []
          [BudgetPeriod.mk (JNum.num 50) (JNum.num 100),
           BudgetPeriod.mk (JNum.num 25) (JNum.num 50)]].map (fun e => e.pfx)) = true ∨
      ("WEEKLY" : String) ≠ "WEEKLY" ∨
      ∃ e ∈ [BudgetEntry.mk []
          [BudgetPeriod.mk (JNum.num 50) (JNum.num 100),
           BudgetPeriod.mk (JNum.num 25) (JNum.num 50)]], entryPeriodsSorted e = false := by
    exact Or.inr (Or.inr ⟨BudgetEntry.mk []
      [BudgetPeriod.mk (JNum.num 50) (JNum.num 100),
       BudgetPeriod.mk (JNum.num 25) (JNum.num 50)], by simp, by decide⟩)
  exact ⟨hbad,
    (applyBudget_validation_all_or_nothing [[(["1"], JNum.num 10)]]
      (WGRef.mk [GNode.mk ["1"] 0] 0) _ hbad).1⟩

/-- C8: a successful `applyBudget` leaves every pre-existing table in the
store unchanged (in particular the input's weight table), returns the same
graph, and its result references a freshly allocated table (the index just
past the old store). -/
theorem applyBudget_no_mutation (st : Store) (wg : WGRef) (bdg : Budget)
    (st2 : Store) (out : WGRef)
    (h : applyBudgetStore st wg bdg = (st2, Except.ok out)) :
    (∀ i, i < st.length → st2.getD i [] = st.getD i []) ∧
    out.graph = wg.graph ∧ out.weightsRef = st.length := by
  unfold applyBudgetStore at h
  by_cases h1 : _anyCommonPrefixes (bdg.entries.map (fun e => e.pfx)) = true
  · rw [if_pos h1] at h
    cases congrArg Prod.snd h
  · rw [if_neg h1] at h
    by_cases h2 : bdg.intervalLength ≠ "WEEKLY"
    · rw [if_pos h2] at h
      cases congrArg Prod.snd h
    · rw [if_neg h2] at h
      cases hcr : _computeReweighting
          (WeightedGraph.mk wg.graph (st.getD wg.weightsRef [])) bdg with
      | error msg =>
          rw [hcr] at h
          cases congrArg Prod.snd h
      | ok rw0 =>
          rw [hcr] at h
          have hst : st2 = st ++ [materialize (st.getD wg.weightsRef []) rw0
              (st.getD wg.weightsRef [])] := (congrArg Prod.fst h).symm
          have hout : out = WGRef.mk wg.graph st.length := by
            have := congrArg Prod.snd h
            simp only at this
            cases this
            rfl
          refine ⟨fun i hi => ?_, by rw [hout], by rw [hout]⟩
          rw [hst]
          exact getD_append_left _ _ _ _ hi

/-- C8 witness: a policy with no entries against a one-node graph whose table
lives at index 0 of a one-table store. -/
theorem applyBudget_no_mutation_witness :
    (∀ i, i < ([[(["1"], JNum.num 10)]] : Store).length →
      (([[(["1"], JNum.num 10)], [(["1"], JNum.num 10)]] : Store)).getD i [] =
        ([[(["1"], JNum.num 10)]] : Store).getD i []) ∧
    (WGRef.mk [GNode.mk ["1"] 0] 1).graph = (WGRef.mk [GNode.mk ["1"] 0] 0).graph ∧
    (WGRef.mk [GNode.mk ["1"] 0] 1).weightsRef = ([[(["1"], JNum.num 10)]] : Store).length :=
  applyBudget_no_mutation [[(["1"], JNum.num 10)]] (WGRef.mk [GNode.mk ["1"] 0] 0)
    (Budget.mk [] "WEEKLY") [[(["1"], JNum.num 10)], [(["1"], JNum.num 10)]]
    (WGRef.mk [GNode.mk ["1"] 0] 1) (by rfl)

lemma wget_wset_self : ∀ (w : NodeWeights) (a : NodeAddr) (v : JNum),
    wget (wset w a v) a = some v := by
  intro w a v
  induction w with
  | nil => simp [wget, wset]
  | cons p rest ih =>
      obtain ⟨b, x⟩ := p
      by_cases h : b = a
      · simp [wget, wset, h]
      · simp only [wset, if_neg h]
        simpa [wget, h] using ih

lemma wget_wset_ne : ∀ (w : NodeWeights) {a b : NodeAddr}, b ≠ a → ∀ v : JNum,
    wget (wset w a v) b = wget w b := by
  intro w a b hne v
  induction w with
  | nil => simp [wget, wset, Ne.symm hne]
  | cons p rest ih =>
      obtain ⟨c, x⟩ := p
      by_cases h : c = a
      · subst h
        simp [wget, wset, Ne.symm hne]
      · simp only [wset, if_neg h]
        by_cases h2 : c = b
        · simp [wget, h2]
        · simpa [wget, h2] using ih

lemma materialize_notmem (orig : NodeWeights) :
    ∀ (l : List Reweight) (nw : NodeWeights) (a : NodeAddr),
      a ∉ l.map (fun r => r.address) →
      wget (materialize orig l nw) a = wget nw a := by
  intro l
  induction l with
  | nil => intro nw a _; rfl
  | cons r rest ih =>
      intro nw a hnot
      simp only [List.map_cons, List.mem_cons, not_or] at hnot
      rw [materialize, ih _ _ hnot.2, wget_wset_ne _ hnot.1]

lemma materialize_mem (orig : NodeWeights) :
    ∀ (l : List Reweight) (nw : NodeWeights) (r : Reweight),
      (l.map (fun r => r.address)).Nodup → r ∈ l →
      wget (materialize orig l nw) r.address =
        some (jmul ((wget orig r.address).getD (JNum.num 1)) r.weight) := by
  intro l
  induction l with
  | nil => intro nw r _ hr; cases hr
  | cons r0 rest ih =>
      intro nw r hnd hr
      obtain ⟨hnot, hnd2⟩ := List.pairwise_cons.mp hnd
      rcases List.mem_cons.mp hr with h | h
      · subst h
        have hout : r.address ∉ rest.map (fun r => r.address) := by
          intro hmem
          obtain ⟨r2, hr2, ha2⟩ := List.mem_map.mp hmem
          exact (hnot r2.address (List.mem_map.mpr ⟨r2, hr2, rfl⟩)) ha2.symm
        rw [materialize, materialize_notmem _ _ _ _ hout, wget_wset_self]
      · rw [materialize]
        exact ih _ r hnd2 h

lemma insertSorted_perm (x : Int) :
    ∀ l : List Int, List.Perm (insertSorted x l) (x :: l) := by
  intro l
  induction l with
  | nil => simp [insertSorted]
  | cons y rest ih =>
      by_cases h : x ≤ y
      · simp [insertSorted, h]
      · rw [insertSorted, if_neg h]
        exact List.Perm.trans (List.Perm.cons y ih) (List.Perm.swap x y rest)

lemma sortInts_perm : ∀ l : List Int, List.Perm (sortInts l) l := by
  intro l
  induction l with
  | nil => simp [sortInts]
  | cons x rest ih =>
      have : sortInts (x :: rest) = insertSorted x (sortInts rest) := rfl
      rw [this]
      exact List.Perm.trans (insertSorted_perm x (sortInts rest)) (List.Perm.cons x ih)

lemma partitionGraph_nodes {g : Graph} {pg : PGroup} (h : pg ∈ partitionGraph g) :
    pg.nodes = g.filter (fun n => weekStart n.timestampMs == pg.interval.startTimeMs) := by
  obtain ⟨s, _, hpg⟩ := List.mem_map.mp h
  rw [← hpg]

lemma partitionGraph_starts_nodup (g : Graph) :
    ((partitionGraph g).map (fun pg => pg.interval.startTimeMs)).Nodup := by
  have : (partitionGraph g).map (fun pg => pg.interval.startTimeMs) =
      sortInts ((g.map (fun n => weekStart n.timestampMs)).dedup) := by
    simp only [partitionGraph, List.map_map, Function.comp_def]
    exact List.map_id _
  rw [this]
  exact (sortInts_perm _).nodup_iff.mpr (List.nodup_dedup _)

lemma partitionGraph_pairwise_ne (g : Graph) :
    (partitionGraph g).Pairwise
      (fun p q => p.interval.startTimeMs ≠ q.interval.startTimeMs) := by
  have := partitionGraph_starts_nodup g
  rw [List.Nodup, List.pairwise_map] at this
  exact this

lemma partitionGraph_eq_of_start {g : Graph} {p q : PGroup}
    (hp : p ∈ partitionGraph g) (hq : q ∈ partitionGraph g)
    (h : p.interval.startTimeMs = q.interval.startTimeMs) : p = q := by
  obtain ⟨s1, _, hp1⟩ := List.mem_map.mp hp
  obtain ⟨s2, _, hq1⟩ := List.mem_map.mp hq
  have hs : s1 = s2 := by
    have e1 : p.interval.startTimeMs = s1 := by rw [← hp1]
    have e2 : q.interval.startTimeMs = s2 := by rw [← hq1]
    rw [e1, e2] at h
    exact h
  rw [← hp1, ← hq1, hs]

lemma mem_pgroup_nodes {g : Graph} {pg : PGroup} (hpg : pg ∈ partitionGraph g)
    {n : GNode} (hn : n ∈ pg.nodes) :
    n ∈ g ∧ weekStart n.timestampMs = pg.interval.startTimeMs := by
  rw [partitionGraph_nodes hpg] at hn
  have := List.mem_filter.mp hn
  exact ⟨this.1, by simpa using this.2⟩

lemma addr_inj {g : Graph} (hnodup : (g.map (fun n => n.address)).Nodup)
    {n1 n2 : GNode} (h1 : n1 ∈ g) (h2 : n2 ∈ g)
    (ha : n1.address = n2.address) : n1 = n2 := by
  by_contra hne
  have hpw : g.Pairwise (fun m1 m2 => m1.address ≠ m2.address) := by
    rw [List.Nodup, List.pairwise_map] at hnodup
    exact hnodup
  exact (List.Pairwise.forall (fun _ _ h => Ne.symm h) hpw h1 h2 hne) ha

lemma buckets_addr_disjoint {g : Graph} (hnodup : (g.map (fun n => n.address)).Nodup)
    {p q : PGroup} (hp : p ∈ partitionGraph g) (hq : q ∈ partitionGraph g)
    (hne : p.interval.startTimeMs ≠ q.interval.startTimeMs) (a : NodeAddr)
    (hpa : ∃ n ∈ p.nodes, n.address = a) (hqa : ∃ n ∈ q.nodes, n.address = a) :
    False := by
  obtain ⟨n1, hn1, ha1⟩ := hpa
  obtain ⟨n2, hn2, ha2⟩ := hqa
  obtain ⟨hg1, hw1⟩ := mem_pgroup_nodes hp hn1
  obtain ⟨hg2, hw2⟩ := mem_pgroup_nodes hq hn2
  have : n1 = n2 := addr_inj hnodup hg1 hg2 (by rw [ha1, ha2])
  rw [this, hw2] at hw1
  exact hne hw1.symm

lemma pfx_comparable {a p1 p2 : NodeAddr} (h1 : addrHasPfx a p1 = true)
    (h2 : addrHasPfx a p2 = true) :
    addrHasPfx p2 p1 = true ∨ addrHasPfx p1 p2 = true := by
  rw [addrHasPfx, List.isPrefixOf_iff_prefix] at h1 h2 ⊢
  rw [addrHasPfx, List.isPrefixOf_iff_prefix]
  exact List.prefix_or_prefix_of_prefix h1 h2

lemma entries_pfx_incomparable {entries : List BudgetEntry}
    (hpre : _anyCommonPrefixes (entries.map (fun e => e.pfx)) = false) :
    entries.Pairwise (fun e1 e2 => noMutualPfx e1.pfx e2.pfx) := by
  have := (anyCommonPrefixes_eq_false_iff (entries.map (fun e => e.pfx))).mp hpre
  rw [List.pairwise_map] at this
  exact this

/-- The addresses of a bucket's nodes that match an entry's prefix
(`filteredAddresses` at mintBudget.js line 160). -/
def bucketAddrs (e : BudgetEntry) (pg : PGroup) : List NodeAddr :=
  (pg.nodes.map (fun n => n.address)).filter (fun a => addrHasPfx a e.pfx)

/-- The budget resolved for a bucket from an entry's periods
(mintBudget.js line 158). -/
def bucketBudget (e : BudgetEntry) (pg : PGroup) : JNum :=
  _findCurrentBudget e.periods (JNum.num pg.interval.startTimeMs)

/-- The normalization coefficient computed for a bucket
(mintBudget.js line 167). -/
def bucketNormalizer (evaluator : NodeAddr → JNum) (e : BudgetEntry) (pg : PGroup) : JNum :=
  _computeWeightNormalizer
    ((bucketAddrs e pg).map (fun a => AddressWeight.mk a (evaluator a)))
    (bucketBudget e pg)

lemma bucketReweights_eq (evaluator : NodeAddr → JNum) (e : BudgetEntry) (pg : PGroup) :
    bucketReweights evaluator e pg =
      if bucketNormalizer evaluator e pg = JNum.num 1 then []
      else (bucketAddrs e pg).map (fun a => Reweight.mk a (bucketNormalizer evaluator e pg)) :=
  rfl

/-- The records an entry contributes across all buckets (the `results` array
of `_reweightingForEntry`). -/
def entryReweights (evaluator : NodeAddr → JNum) (partition : List PGroup)
    (e : BudgetEntry) : List Reweight :=
  (partition.map (bucketReweights evaluator e)).flatten

lemma reweightingsForEntries_ok_inv {evaluator : NodeAddr → JNum}
    {partition : List PGroup} :
    ∀ {l : List BudgetEntry} {ls : List (List Reweight)},
      reweightingsForEntries evaluator partition l = Except.ok ls →
      ls = l.map (entryReweights evaluator partition) := by
  intro l
  induction l with
  | nil =>
      intro ls h
      unfold reweightingsForEntries at h
      injection h with h2
      rw [← h2]
      rfl
  | cons a rest ih =>
      intro ls h
      unfold reweightingsForEntries at h
      cases ha : _reweightingForEntry evaluator partition a with
      | error msg => rw [ha] at h; cases h
      | ok rw0 =>
          rw [ha] at h
          cases hr : reweightingsForEntries evaluator partition rest with
          | error msg => rw [hr] at h; cases h
          | ok rest2 =>
              rw [hr] at h
              injection h with h2
              have hrw0 : rw0 = entryReweights evaluator partition a := by
                unfold _reweightingForEntry at ha
                by_cases hs : inSortedOrder (a.periods.map (fun p => p.startTimeMs)) = false
                · rw [if_pos hs] at ha; cases ha
                · rw [if_neg hs] at ha
                  injection ha with h3
                  exact h3.symm
              rw [← h2, hrw0, ih hr]
              rfl

lemma mem_bucketReweights_address {evaluator : NodeAddr → JNum} {e : BudgetEntry}
    {pg : PGroup} {a : NodeAddr}
    (h : a ∈ (bucketReweights evaluator e pg).map (fun r => r.address)) :
    a ∈ bucketAddrs e pg := by
  rw [bucketReweights_eq] at h
  by_cases hn : bucketNormalizer evaluator e pg = JNum.num 1
  · rw [if_pos hn] at h; cases h
  · rw [if_neg hn, List.map_map] at h
    simpa using h

lemma bucketAddrs_mem {e : BudgetEntry} {pg : PGroup} {a : NodeAddr}
    (h : a ∈ bucketAddrs e pg) :
    (∃ n ∈ pg.nodes, n.address = a) ∧ addrHasPfx a e.pfx = true := by
  rw [bucketAddrs] at h
  have h2 := List.mem_filter.mp h
  exact ⟨List.mem_map.mp h2.1, by simpa using h2.2⟩

lemma pgroup_addrs_nodup {g : Graph} (hnodup : (g.map (fun n => n.address)).Nodup)
    {pg : PGroup} (hpg : pg ∈ partitionGraph g) :
    (pg.nodes.map (fun n => n.address)).Nodup := by
  rw [partitionGraph_nodes hpg]
  exact List.Nodup.sublist (List.Sublist.map _ (List.filter_sublist g)) hnodup

lemma bucketReweights_addr_nodup {g : Graph}
    (hnodup : (g.map (fun n => n.address)).Nodup) {pg : PGroup}
    (hpg : pg ∈ partitionGraph g) (evaluator : NodeAddr → JNum) (e : BudgetEntry) :
    ((bucketReweights evaluator e pg).map (fun r => r.address)).Nodup := by
  rw [bucketReweights_eq]
  by_cases hn : bucketNormalizer evaluator e pg = JNum.num 1
  · rw [if_pos hn]; exact List.nodup_nil
  · rw [if_neg hn, List.map_map]
    have h2 : (bucketAddrs e pg).Nodup :=
      List.Nodup.filter _ (pgroup_addrs_nodup hnodup hpg)
    simpa [Function.comp_def] using h2

lemma mem_entryReweights_address {evaluator : NodeAddr → JNum}
    {partition : List PGroup} {e : BudgetEntry} {a : NodeAddr}
    (h : a ∈ (entryReweights evaluator partition e).map (fun r => r.address)) :
    addrHasPfx a e.pfx = true ∧
      ∃ pg ∈ partition, a ∈ (bucketReweights evaluator e pg).map (fun r => r.address) := by
  obtain ⟨r, hr, hra⟩ := List.mem_map.mp h
  obtain ⟨l, hl, hrl⟩ := List.mem_flatten.mp hr
  obtain ⟨pg, hpg, hl2⟩ := List.mem_map.mp hl
  have hin : a ∈ (bucketReweights evaluator e pg).map (fun r => r.address) :=
    List.mem_map.mpr ⟨r, hl2 ▸ hrl, hra⟩
  exact ⟨(bucketAddrs_mem (mem_bucketReweights_address hin)).2, pg, hpg, hin⟩

lemma entryReweights_addr_nodup {g : Graph}
    (hnodup : (g.map (fun n => n.address)).Nodup)
    (evaluator : NodeAddr → JNum) (e : BudgetEntry) :
    ((entryReweights evaluator (partitionGraph g) e).map (fun r => r.address)).Nodup := by
  rw [entryReweights, List.map_flatten, List.map_map, List.nodup_flatten]
  constructor
  · intro l hl
    obtain ⟨pg, hpg, hl2⟩ := List.mem_map.mp hl
    rw [← hl2]
    exact bucketReweights_addr_nodup hnodup hpg evaluator e
  · rw [List.pairwise_map]
    refine List.Pairwise.imp_of_mem ?_ (partitionGraph_pairwise_ne g)
    intro p q hp hq hne a hap haq
    have h1 := mem_bucketReweights_address hap
    have h2 := mem_bucketReweights_address haq
    exact buckets_addr_disjoint hnodup hp hq hne a
      (bucketAddrs_mem h1).1 (bucketAddrs_mem h2).1

lemma reweighting_addr_nodup {wg : WeightedGraph} {bdg : Budget}
    (hpre : _anyCommonPrefixes (bdg.entries.map (fun e => e.pfx)) = false)
    (hnodup : (wg.graph.map (fun n => n.address)).Nodup) :
    (((bdg.entries.map (entryReweights (nodeWeightEvaluator wg.weights)
      (partitionGraph wg.graph))).flatten).map (fun r => r.address)).Nodup := by
  rw [List.map_flatten, List.map_map, List.nodup_flatten]
  constructor
  · intro l hl
    obtain ⟨e, he, hl2⟩ := List.mem_map.mp hl
    rw [← hl2]
    exact entryReweights_addr_nodup hnodup _ e
  · rw [List.pairwise_map]
    refine List.Pairwise.imp_of_mem ?_ (entries_pfx_incomparable hpre)
    intro e1 e2 he1 he2 hmut a ha1 ha2
    have h1 := mem_entryReweights_address ha1
    have h2 := mem_entryReweights_address ha2
    exact hmut (Or.symm (pfx_comparable h1.1 h2.1))

/-- C9: with prefix-disjoint entries and distinct node addresses, the computed
reweighting mentions each address at most once, and materialization therefore
sets each reweighted address exactly once, from its original effective weight
— reweightings never compound. -/
theorem computeReweighting_at_most_once (wg : WeightedGraph) (bdg : Budget)
    (rw : List Reweight)
    (hpre : _anyCommonPrefixes (bdg.entries.map (fun e => e.pfx)) = false)
    (hnodup : (wg.graph.map (fun n => n.address)).Nodup)
    (hok : _computeReweighting wg bdg = Except.ok rw) :
    (rw.map (fun r => r.address)).Nodup ∧
    (∀ r ∈ rw, wget (materialize wg.weights rw wg.weights) r.address =
      some (jmul ((wget wg.weights r.address).getD (JNum.num 1)) r.weight)) := by
  have hshape : rw = (bdg.entries.map (entryReweights (nodeWeightEvaluator wg.weights)
      (partitionGraph wg.graph))).flatten := by
    unfold _computeReweighting at hok
    cases hre : reweightingsForEntries (nodeWeightEvaluator wg.weights)
        (partitionGraph wg.graph) bdg.entries with
    | error msg => rw [hre] at hok; cases hok
    | ok ls =>
        rw [hre] at hok
        injection hok with h2
        rw [← h2, reweightingsForEntries_ok_inv hre]
  subst hshape
  have hnd := reweighting_addr_nodup hpre hnodup
  exact ⟨hnd, fun r hr => materialize_mem _ _ _ r hnd hr⟩

/-- C9 witness: the repo's contention example — weights 10 and 90 in one week
under budget 10 — produces exactly one record per address. -/
theorem computeReweighting_at_most_once_witness :
    (([Reweight.mk ["1"] (JNum.num (1/10)), Reweight.mk ["2"] (JNum.num (1/10))].map
        (fun r => r.address)).Nodup) ∧
    (∀ r ∈ [Reweight.mk ["1"] (JNum.num (1/10)), Reweight.mk ["2"] (JNum.num (1/10))],
      wget (materialize [(["1"], JNum.num 10), (["2"], JNum.num 90)]
        [Reweight.mk ["1"] (JNum.num (1/10)), Reweight.mk ["2"] (JNum.num (1/10))]
        [(["1"], JNum.num 10), (["2"], JNum.num 90)]) r.address =
      some (jmul ((wget [(["1"], JNum.num 10), (["2"], JNum.num 90)] r.address).getD
        (JNum.num 1)) r.weight)) :=
  computeReweighting_at_most_once
    (WeightedGraph.mk [GNode.mk ["1"] 0, GNode.mk ["2"] 0]
      [(["1"], JNum.num 10), (["2"], JNum.num 90)])
    (Budget.mk [BudgetEntry.mk [] [BudgetPeriod.mk JNum.negInf (JNum.num 10)]] "WEEKLY")
    [Reweight.mk ["1"] (JNum.num (1/10)), Reweight.mk ["2"] (JNum.num (1/10))]
    (by decide) (by decide) (by rfl)

lemma applyBudget_ok (wg : WeightedGraph) (bdg : Budget)
    (hpre : _anyCommonPrefixes (bdg.entries.map (fun e => e.pfx)) = false)
    (hlen : bdg.intervalLength = "WEEKLY")
    (hsorted : ∀ e ∈ bdg.entries, entryPeriodsSorted e = true) :
    applyBudget wg bdg = Except.ok (WeightedGraph.mk wg.graph
      (materialize wg.weights
        ((bdg.entries.map (entryReweights (nodeWeightEvaluator wg.weights)
          (partitionGraph wg.graph))).flatten) wg.weights)) := by
  unfold applyBudget
  rw [computeReweighting_ok hsorted]
  simp only [hpre, Bool.false_eq_true, if_false, hlen, ne_eq, not_true_eq_false]
  rfl

lemma bucketTotal_eq (evaluator : NodeAddr → JNum) (e : BudgetEntry) (pg : PGroup) :
    jsum (((bucketAddrs e pg).map
        (fun a => AddressWeight.mk a (evaluator a))).map (fun aw => aw.weight)) =
      jsum ((bucketAddrs e pg).map evaluator) := by
  rw [List.map_map]
  rfl

lemma bucketNormalizer_of_le {evaluator : NodeAddr → JNum} {e : BudgetEntry}
    {pg : PGroup}
    (h : jle (jsum ((bucketAddrs e pg).map evaluator)) (bucketBudget e pg) = true) :
    bucketNormalizer evaluator e pg = JNum.num 1 := by
  unfold bucketNormalizer _computeWeightNormalizer
  rw [bucketTotal_eq]
  dsimp only
  rw [h]
  rfl

lemma bucketNormalizer_of_gt {evaluator : NodeAddr → JNum} {e : BudgetEntry}
    {pg : PGroup} {b s : ℚ}
    (hB : bucketBudget e pg = JNum.num b)
    (hsum : jsum ((bucketAddrs e pg).map evaluator) = JNum.num s)
    (hlt : b < s) (hs0 : s ≠ 0) :
    bucketNormalizer evaluator e pg = JNum.num (b / s) := by
  unfold bucketNormalizer _computeWeightNormalizer
  rw [bucketTotal_eq, hsum, hB]
  have hle : jle (JNum.num s) (JNum.num b) = false := by
    simp [jle, not_le.mpr hlt]
  dsimp only
  rw [hle]
  simp [jdiv, hs0]

/-- C1: for a validated policy and a graph with distinct node addresses,
consider any entry and any weekly bucket; let S be the bucket's addresses
matching the entry's prefix, W the sum of their effective weights and B the
budget resolved at the bucket's start.  `applyBudget` succeeds, and: if
W ≤ B the weight-table entries of the addresses in S are unchanged; if
W > B (with B a non-negative finite number and W a finite sum), every
address in S gets exactly its original effective weight times B/W, and the
bucket's new matching total is exactly B. -/
theorem applyBudget_bucket_scaling (wg : WeightedGraph) (bdg : Budget)
    (hpre : _anyCommonPrefixes (bdg.entries.map (fun e => e.pfx)) = false)
    (hlen : bdg.intervalLength = "WEEKLY")
    (hsorted : ∀ e ∈ bdg.entries, entryPeriodsSorted e = true)
    (hnodup : (wg.graph.map (fun n => n.address)).Nodup)
    (entry : BudgetEntry) (hentry : entry ∈ bdg.entries)
    (pg : PGroup) (hpg : pg ∈ partitionGraph wg.graph) :
    ∃ out, applyBudget wg bdg = Except.ok out ∧
      (jle (jsum ((bucketAddrs entry pg).map (nodeWeightEvaluator wg.weights)))
          (bucketBudget entry pg) = true →
        ∀ a ∈ bucketAddrs entry pg, wget out.weights a = wget wg.weights a) ∧
      (∀ b s : ℚ, 0 ≤ b → bucketBudget entry pg = JNum.num b →
        jsum ((bucketAddrs entry pg).map (nodeWeightEvaluator wg.weights)) = JNum.num s →
        b < s →
        (∀ a ∈ bucketAddrs entry pg,
          wget out.weights a = some (jmul (nodeWeightEvaluator wg.weights a)
            (jdiv (JNum.num b) (JNum.num s)))) ∧
        (∀ qs : List ℚ,
          (bucketAddrs entry pg).map (nodeWeightEvaluator wg.weights) = qs.map JNum.num →
          jsum ((bucketAddrs entry pg).map (fun a =>
            jmul (nodeWeightEvaluator wg.weights a)
              (jdiv (JNum.num b) (JNum.num s)))) = JNum.num b)) := by
  have hout := applyBudget_ok wg bdg hpre hlen hsorted
  have hnd := reweighting_addr_nodup hpre hnodup
  refine ⟨_, hout, ?_, ?_⟩
  · intro hle a ha
    have hnorm : bucketNormalizer (nodeWeightEvaluator wg.weights) entry pg = JNum.num 1 :=
      bucketNormalizer_of_le hle
    have hnotmem : a ∉ ((bdg.entries.map (entryReweights (nodeWeightEvaluator wg.weights)
        (partitionGraph wg.graph))).flatten).map (fun r => r.address) := by
      intro hmem
      obtain ⟨r, hr, hra⟩ := List.mem_map.mp hmem
      obtain ⟨l, hl, hrl⟩ := List.mem_flatten.mp hr
      obtain ⟨e2, he2, hl2⟩ := List.mem_map.mp hl
      have hal : a ∈ (entryReweights (nodeWeightEvaluator wg.weights)
          (partitionGraph wg.graph) e2).map (fun r => r.address) :=
        List.mem_map.mpr ⟨r, hl2 ▸ hrl, hra⟩
      obtain ⟨hpfx2, pg2, hpg2, hapg2⟩ := mem_entryReweights_address hal
      have hpfx1 : addrHasPfx a entry.pfx = true := (bucketAddrs_mem ha).2
      have he2entry : e2 = entry := by
        by_contra hne
        have hpw := entries_pfx_incomparable hpre
        have hmut := List.Pairwise.forall (fun _ _ h => noMutualPfx_symm h) hpw
          he2 hentry hne
        exact hmut (@pfx_comparable a entry.pfx e2.pfx hpfx1 hpfx2)
      subst he2entry
      have hstart : pg2.interval.startTimeMs = pg.interval.startTimeMs := by
        by_contra hnes
        exact buckets_addr_disjoint hnodup hpg2 hpg hnes a
          (bucketAddrs_mem (mem_bucketReweights_address hapg2)).1
          (bucketAddrs_mem ha).1
      have hpg2pg : pg2 = pg := partitionGraph_eq_of_start hpg2 hpg hstart
      subst hpg2pg
      rw [bucketReweights_eq, if_pos hnorm] at hapg2
      cases hapg2
    exact materialize_notmem _ _ _ _ hnotmem
  · intro b s hb0 hB hsum hlt
    have hs0 : s ≠ 0 := by
      intro h
      rw [h] at hlt
      exact absurd hlt (not_lt.mpr hb0)
    have hspos : (0 : ℚ) < s := lt_of_le_of_lt hb0 hlt
    have hnorm := bucketNormalizer_of_gt hB hsum hlt hs0
    have hdiv : jdiv (JNum.num b) (JNum.num s) = JNum.num (b / s) := by
      simp [jdiv, hs0]
    have hne1 : bucketNormalizer (nodeWeightEvaluator wg.weights) entry pg ≠ JNum.num 1 := by
      rw [hnorm]
      intro h
      injection h with h2
      have hlt1 : b / s < 1 := (div_lt_one hspos).mpr hlt
      rw [h2] at hlt1
      exact lt_irrefl 1 hlt1
    constructor
    · intro a ha
      have hrec : Reweight.mk a (bucketNormalizer (nodeWeightEvaluator wg.weights) entry pg) ∈
          (bdg.entries.map (entryReweights (nodeWeightEvaluator wg.weights)
            (partitionGraph wg.graph))).flatten := by
        refine List.mem_flatten.mpr ⟨_, List.mem_map_of_mem _ hentry, ?_⟩
        refine List.mem_flatten.mpr ⟨_, List.mem_map_of_mem _ hpg, ?_⟩
        rw [bucketReweights_eq, if_neg hne1]
        exact List.mem_map_of_mem _ ha
      have hval := materialize_mem wg.weights _ wg.weights _ hnd hrec
      rw [hdiv]
      rw [hval, hnorm]
      rfl
    · intro qs hqs
      have hsq : qs.sum = s := by
        rw [hqs, jsum_map_num] at hsum
        injection hsum
      have hmap1 : (bucketAddrs entry pg).map (fun a =>
          jmul (nodeWeightEvaluator wg.weights a) (jdiv (JNum.num b) (JNum.num s))) =
          ((bucketAddrs entry pg).map (nodeWeightEvaluator wg.weights)).map
            (fun w => jmul w (jdiv (JNum.num b) (JNum.num s))) := by
        rw [List.map_map]
        rfl
      rw [hmap1, hqs, hdiv, List.map_map]
      have hmap2 : ((fun w => jmul w (JNum.num (b / s))) ∘ JNum.num) =
          (JNum.num ∘ fun q => q * (b / s)) := by
        funext q
        rfl
      rw [hmap2, ← List.map_map, jsum_map_num]
      have hsum2 : (qs.map (fun q => q * (b / s))).sum = qs.sum * (b / s) := by
        simpa using List.sum_map_mul_right qs (fun q => q) (b / s)
      rw [hsum2, hsq, mul_comm, div_mul_cancel₀ b hs0]

/-- The spec's end-to-end example: nodes with weights 10 and 90 in the same
week, one entry over the whole address space with budget 10. -/
def sampleGraphC1 : WeightedGraph :=
  WeightedGraph.mk [GNode.mk ["1"] 0, GNode.mk ["2"] 0]
    [(["1"], JNum.num 10), (["2"], JNum.num 90)]

/-- The policy of the spec's end-to-end example. -/
def sampleBudgetC1 : Budget :=
  Budget.mk [BudgetEntry.mk [] [BudgetPeriod.mk JNum.negInf (JNum.num 10)]] "WEEKLY"

/-- Its single entry. -/
def sampleEntryC1 : BudgetEntry :=
  BudgetEntry.mk [] [BudgetPeriod.mk JNum.negInf (JNum.num 10)]

/-- Its single weekly bucket. -/
def samplePGroupC1 : PGroup :=
  PGroup.mk (Interval.mk 0) [GNode.mk ["1"] 0, GNode.mk ["2"] 0]

/-- C1 witness: the spec's end-to-end example, with every hypothesis
discharged by evaluation. -/
theorem applyBudget_bucket_scaling_witness :
    ∃ out, applyBudget sampleGraphC1 sampleBudgetC1 = Except.ok out ∧
      (jle (jsum ((bucketAddrs sampleEntryC1 samplePGroupC1).map
          (nodeWeightEvaluator sampleGraphC1.weights)))
          (bucketBudget sampleEntryC1 samplePGroupC1) = true →
        ∀ a ∈ bucketAddrs sampleEntryC1 samplePGroupC1,
          wget out.weights a = wget sampleGraphC1.weights a) ∧
      (∀ b s : ℚ, 0 ≤ b → bucketBudget sampleEntryC1 samplePGroupC1 = JNum.num b →
        jsum ((bucketAddrs sampleEntryC1 samplePGroupC1).map
          (nodeWeightEvaluator sampleGraphC1.weights)) = JNum.num s →
        b < s →
        (∀ a ∈ bucketAddrs sampleEntryC1 samplePGroupC1,
          wget out.weights a = some (jmul (nodeWeightEvaluator sampleGraphC1.weights a)
            (jdiv (JNum.num b) (JNum.num s)))) ∧
        (∀ qs : List ℚ,
          (bucketAddrs sampleEntryC1 samplePGroupC1).map
            (nodeWeightEvaluator sampleGraphC1.weights) = qs.map JNum.num →
          jsum ((bucketAddrs sampleEntryC1 samplePGroupC1).map (fun a =>
            jmul (nodeWeightEvaluator sampleGraphC1.weights a)
              (jdiv (JNum.num b) (JNum.num s)))) = JNum.num b)) :=
  applyBudget_bucket_scaling sampleGraphC1 sampleBudgetC1 (by decide) (by rfl)
    (by decide) (by decide) sampleEntryC1 (by decide) samplePGroupC1 (by decide)

end MintBudget
